import Mathlib

/-!
Verification of the FEX interpreter ALU handlers and of the BucketList
container (src/External/FEXCore/include/FEXCore/Utils/BucketList.h).

Machine integers are modelled as Nat (or Int for signed views) with explicit
reduction modulo 2 ^ w where the C++ code wraps.  The destination slot GD is a
64-bit location: handlers store the computed C++ expression converted to
uint64_t (the source mutates GD as a uint64_t lvalue, e.g. Op_UMulH does
GD >>= 32 after a full 64-bit store, so GD cannot be a write masked to the
declared operation size).
-/

/-- Reinterpretation of the low w bits of a natural number as a signed
two's-complement integer, as a C++ static_cast to a w-bit signed type does. -/
def sextCast (w : Nat) (n : Nat) : Int :=
  if n % 2 ^ w < 2 ^ (w - 1) then ((n % 2 ^ w : Nat) : Int)
  else ((n % 2 ^ w : Nat) : Int) - 2 ^ w

/-- Conversion of a mathematical integer to uint64_t: reduction modulo 2 ^ 64,
always nonnegative. -/
def u64ofInt (i : Int) : Nat :=
  (i % (2 ^ 64 : Int)).toNat

/-- Wrapping of a mathematical integer into the w-bit two's-complement
range, modelling overflow of a C++ signed w-bit operation. -/
def wrapS (w : Nat) (i : Int) : Int :=
  (i + 2 ^ (w - 1)) % 2 ^ w - 2 ^ (w - 1)

/-- Op_UMulH from the source: both operands are read as uint64_t.  Size 4
takes the high 32 bits of the wrapped 64-bit product; sizes 8 and 16 both
compute the 128-bit product of the two 64-bit reads and keep bits 64..127
(the size 16 case carries the source comment "XXX: This is incorrect"). -/
def Op_UMulH (size : Nat) (src1 src2 : Nat) : Nat :=
  let a := src1 % 2 ^ 64
  let b := src2 % 2 ^ 64
  match size with
  | 4 => (a * b % 2 ^ 64) >>> 32
  | 8 => ((a * b % 2 ^ 128) >>> 64) % 2 ^ 64
  | 16 => ((a * b % 2 ^ 128) >>> 64) % 2 ^ 64
  | _ => 0

/-- C1: UMulH with op.size = 16 writes exactly what op.size = 8 writes on the
same operands: the high 64 bits of the 128-bit product of the two 64-bit
operand reads, not the high half of a genuine 128-bit by 128-bit product. -/
theorem umulh_size16_eq_size8 (a b : Nat) (ha : a < 2 ^ 64) (hb : b < 2 ^ 64) :
    Op_UMulH 16 a b = Op_UMulH 8 a b ∧ Op_UMulH 16 a b = a * b / 2 ^ 64 := by
  have hab : a * b < 2 ^ 128 := by
    calc a * b < 2 ^ 64 * 2 ^ 64 := Nat.mul_lt_mul_of_lt_of_lt ha hb
    _ = 2 ^ 128 := by norm_num
  have hq : a * b / 2 ^ 64 < 2 ^ 64 := by
    apply Nat.div_lt_of_lt_mul
    calc a * b < 2 ^ 128 := hab
    _ = 2 ^ 64 * 2 ^ 64 := by norm_num
  constructor
  · rfl
  · simp only [Op_UMulH, Nat.mod_eq_of_lt ha, Nat.mod_eq_of_lt hb,
      Nat.mod_eq_of_lt hab, Nat.shiftRight_eq_div_pow]
    exact Nat.mod_eq_of_lt hq

/-- Witness for C1 at a concrete input. -/
theorem umulh_size16_eq_size8_witness :
    Op_UMulH 16 (2 ^ 63) 3 = Op_UMulH 8 (2 ^ 63) 3 ∧ Op_UMulH 16 (2 ^ 63) 3 = 1 := by
  have h := umulh_size16_eq_size8 (2 ^ 63) 3 (by norm_num) (by norm_num)
  exact ⟨h.1, h.2.trans (by norm_num)⟩

/-- Op_Neg from the source: size 4 computes the int32 two's-complement
negation of the low 32 bits of the operand and stores it into the 64-bit
destination slot by the int32 to uint64 conversion (a sign extension);
size 8 negates the full 64-bit value. -/
def Op_Neg (size : Nat) (src : Nat) : Nat :=
  match size with
  | 4 => u64ofInt (wrapS 32 (-(sextCast 32 src)))
  | 8 => u64ofInt (wrapS 64 (-(sextCast 64 src)))
  | _ => 0

/-- C2 counterexample: Neg at size 4 on operand 1 writes the sign-extended
value 0xFFFFFFFFFFFFFFFF into the 64-bit slot, not the zero-extended
0x00000000FFFFFFFF the claim states. -/
theorem neg_size4_not_zero_extended :
    Op_Neg 4 1 = 0xFFFFFFFFFFFFFFFF ∧ Op_Neg 4 1 ≠ 0xFFFFFFFF := by decide

/-- C2 amended: Neg at size 4 writes, into the 64-bit slot, the 64-bit
sign-extension of the 32-bit two's-complement negation of the operand: the
low 32 bits of the written value are (2^32 - a) mod 2^32 and the upper 32
bits are all-ones when that negation has bit 31 set, zero otherwise. -/
theorem neg_size4_sign_extends (a : Nat) (ha : a < 2 ^ 32) :
    Op_Neg 4 a % 2 ^ 32 = (2 ^ 32 - a) % 2 ^ 32 ∧
    Op_Neg 4 a / 2 ^ 32 =
      (if (2 ^ 32 - a) % 2 ^ 32 < 2 ^ 31 then 0 else 2 ^ 32 - 1) := by
  have ha' : (a : Int) < 2 ^ 32 := by exact_mod_cast ha
  simp only [Op_Neg, u64ofInt, wrapS, sextCast]
  norm_num
  split_ifs <;> omega

/-- Witness for the amended C2 at a concrete input. -/
theorem neg_size4_sign_extends_witness :
    Op_Neg 4 1 % 2 ^ 32 = (2 ^ 32 - 1) % 2 ^ 32 ∧
    Op_Neg 4 1 / 2 ^ 32 =
      (if (2 ^ 32 - 1) % 2 ^ 32 < 2 ^ 31 then 0 else 2 ^ 32 - 1) :=
  neg_size4_sign_extends 1 (by norm_num)

/-- Modelled from the spec: the DO_OP helper macro used by Op_Add and Op_Sub
lives in InterpreterDefines.h, which is not under src/.  Per the spec, Add at
sizes 4 and 8 reads both operands at the declared width and stores the
wrapping unsigned sum. -/
def Op_Add (size : Nat) (src1 src2 : Nat) : Nat :=
  match size with
  | 4 => (src1 % 2 ^ 32 + src2 % 2 ^ 32) % 2 ^ 32
  | 8 => (src1 % 2 ^ 64 + src2 % 2 ^ 64) % 2 ^ 64
  | _ => 0

/-- Modelled from the spec: Op_Sub uses the DO_OP helper macro, which is not
under src/.  Per the spec, Sub at sizes 4 and 8 stores the wrapping unsigned
difference at the declared width. -/
def Op_Sub (size : Nat) (src1 src2 : Nat) : Nat :=
  match size with
  | 4 => (src1 % 2 ^ 32 + (2 ^ 32 - src2 % 2 ^ 32)) % 2 ^ 32
  | 8 => (src1 % 2 ^ 64 + (2 ^ 64 - src2 % 2 ^ 64)) % 2 ^ 64
  | _ => 0

/-- Op_UMul from the source: size 4 multiplies the operands as uint32_t
(wrapping at 32 bits, the result zero-extended into the slot), size 8 as
uint64_t, and size 16 stores the full 128-bit product through GDP. -/
def Op_UMul (size : Nat) (src1 src2 : Nat) : Nat :=
  match size with
  | 4 => (src1 % 2 ^ 32) * (src2 % 2 ^ 32) % 2 ^ 32
  | 8 => (src1 % 2 ^ 64) * (src2 % 2 ^ 64) % 2 ^ 64
  | 16 => (src1 % 2 ^ 64) * (src2 % 2 ^ 64) % 2 ^ 128
  | _ => 0

/-- C7: for operands of the supported widths, Add, Sub and UMul write the
mathematical sum, difference and product reduced modulo 2 ^ w. -/
theorem add_sub_umul_modular (a b : Nat) (ha : a < 2 ^ 64) (hb : b < 2 ^ 64) :
    Op_Add 4 a b = (a + b) % 2 ^ 32 ∧
    Op_Add 8 a b = (a + b) % 2 ^ 64 ∧
    Op_UMul 4 a b = a * b % 2 ^ 32 ∧
    Op_UMul 8 a b = a * b % 2 ^ 64 ∧
    (Op_Sub 4 a b : Int) = ((a : Int) - b) % 2 ^ 32 ∧
    (Op_Sub 8 a b : Int) = ((a : Int) - b) % 2 ^ 64 := by
  refine ⟨?_, ?_, ?_, ?_, ?_, ?_⟩
  · simp [Op_Add, Nat.add_mod]
  · simp [Op_Add, Nat.mod_eq_of_lt ha, Nat.mod_eq_of_lt hb]
  · simp [Op_UMul, Nat.mul_mod]
  · simp [Op_UMul, Nat.mod_eq_of_lt ha, Nat.mod_eq_of_lt hb]
  · simp only [Op_Sub]
    push_cast
    omega
  · simp only [Op_Sub]
    push_cast
    omega

/-- Witness for C7 at a concrete input. -/
theorem add_sub_umul_modular_witness :
    Op_Add 4 3 0xFFFFFFFF = (3 + 0xFFFFFFFF) % 2 ^ 32 ∧
    Op_Sub 4 0 1 = ((0 : Int) - 1) % 2 ^ 32 := by
  have h := add_sub_umul_modular 3 0xFFFFFFFF (by norm_num) (by norm_num)
  have h2 := add_sub_umul_modular 0 1 (by norm_num) (by norm_num)
  exact ⟨h.1, by exact_mod_cast h2.2.2.2.2.1⟩

/-- Op_Not from the source: the operand is read as uint64_t, complemented
(complement of a uint64 value x is x XOR 0xFFFFFFFFFFFFFFFF) and masked by a
nine-entry table indexed by the operation size. -/
def Op_Not (size : Nat) (src : Nat) : Nat :=
  let notMask : List Nat :=
    [0, 0xFF, 0xFFFF, 0, 0xFFFFFFFF, 0, 0, 0, 0xFFFFFFFFFFFFFFFF]
  ((src % 2 ^ 64) ^^^ (2 ^ 64 - 1)) &&& notMask.getD size 0

/-- Helper: natural number addition agrees with bitwise or when the summands
share no set bit. -/
theorem add_eq_lor_of_land_eq_zero (a : Nat) :
    ∀ b : Nat, a &&& b = 0 → a + b = a ||| b := by
  induction a using Nat.strong_induction_on with
  | _ a ih =>
    intro b hab
    rcases Nat.eq_zero_or_pos a with rfl | hpos
    · simp
    · have hhalf : a / 2 &&& b / 2 = 0 := by
        rw [← Nat.and_div_two, hab]
      have hrec : a / 2 + b / 2 = (a ||| b) / 2 := by
        rw [Nat.or_div_two]
        exact ih (a / 2) (Nat.div_lt_self hpos (by norm_num)) (b / 2) hhalf
      have hmod : ¬(a % 2 = 1 ∧ b % 2 = 1) := by
        intro h
        have := Nat.and_mod_two_eq_one.mpr h
        omega
      have hor : ((a ||| b) % 2 = 1) ↔ (a % 2 = 1 ∨ b % 2 = 1) :=
        Nat.or_mod_two_eq_one
      have h2a := Nat.mod_two_eq_zero_or_one a
      have h2b := Nat.mod_two_eq_zero_or_one b
      have h2o := Nat.mod_two_eq_zero_or_one (a ||| b)
      omega

/-- Helper: XOR with the all-ones 64-bit mask is subtraction from it. -/
theorem xor_all_ones_64 {a : Nat} (ha : a < 2 ^ 64) :
    a ^^^ (2 ^ 64 - 1) = 2 ^ 64 - 1 - a := by
  have hland : a &&& (a ^^^ (2 ^ 64 - 1)) = 0 := by
    apply Nat.eq_of_testBit_eq
    intro i
    simp only [Nat.testBit_and, Nat.testBit_xor, Nat.testBit_two_pow_sub_one,
      Nat.zero_testBit]
    rcases Nat.lt_or_ge i 64 with hi | hi
    · cases h : a.testBit i <;> simp [hi, h]
    · have : a.testBit i = false :=
        Nat.testBit_lt_two_pow (Nat.lt_of_lt_of_le ha (Nat.pow_le_pow_right (by norm_num) hi))
      simp [this]
  have hlor : a ||| (a ^^^ (2 ^ 64 - 1)) = 2 ^ 64 - 1 := by
    apply Nat.eq_of_testBit_eq
    intro i
    simp only [Nat.testBit_or, Nat.testBit_xor, Nat.testBit_two_pow_sub_one]
    rcases Nat.lt_or_ge i 64 with hi | hi
    · cases h : a.testBit i <;> simp [hi, h]
    · have : a.testBit i = false :=
        Nat.testBit_lt_two_pow (Nat.lt_of_lt_of_le ha (Nat.pow_le_pow_right (by norm_num) hi))
      simp [this, Nat.not_lt_of_ge hi]
  have := add_eq_lor_of_land_eq_zero a (a ^^^ (2 ^ 64 - 1)) hland
  omega

/-- C8: Not writes the bitwise complement reduced to the declared width for
sizes 1, 2, 4 and 8, and writes 0 for sizes 3, 5, 6 and 7 regardless of the
operand. -/
theorem not_mask_table (a : Nat) (ha : a < 2 ^ 64) :
    Op_Not 1 a = (2 ^ 64 - 1 - a) % 2 ^ 8 ∧
    Op_Not 2 a = (2 ^ 64 - 1 - a) % 2 ^ 16 ∧
    Op_Not 4 a = (2 ^ 64 - 1 - a) % 2 ^ 32 ∧
    Op_Not 8 a = 2 ^ 64 - 1 - a ∧
    Op_Not 3 a = 0 ∧ Op_Not 5 a = 0 ∧ Op_Not 6 a = 0 ∧ Op_Not 7 a = 0 := by
  have hx : (a % 2 ^ 64) ^^^ (2 ^ 64 - 1) = 2 ^ 64 - 1 - a := by
    rw [Nat.mod_eq_of_lt ha]; exact xor_all_ones_64 ha
  have hlt : 2 ^ 64 - 1 - a < 2 ^ 64 := by omega
  refine ⟨?_, ?_, ?_, ?_, ?_, ?_, ?_, ?_⟩ <;>
    simp only [Op_Not, List.getD, hx] <;> norm_num
  · rw [show (255 : Nat) = 2 ^ 8 - 1 by norm_num, Nat.and_pow_two_sub_one_eq_mod]
  · rw [show (65535 : Nat) = 2 ^ 16 - 1 by norm_num, Nat.and_pow_two_sub_one_eq_mod]
  · rw [show (4294967295 : Nat) = 2 ^ 32 - 1 by norm_num,
      Nat.and_pow_two_sub_one_eq_mod]
  · rw [show (18446744073709551615 : Nat) = 2 ^ 64 - 1 by norm_num,
      Nat.and_pow_two_sub_one_eq_mod]
    exact Nat.mod_eq_of_lt hlt

/-- Witness for C8 at a concrete input. -/
theorem not_mask_table_witness :
    Op_Not 1 0xF0F0 = (2 ^ 64 - 1 - 0xF0F0) % 2 ^ 8 ∧ Op_Not 3 0xF0F0 = 0 :=
  ⟨(not_mask_table 0xF0F0 (by norm_num)).1,
    (not_mask_table 0xF0F0 (by norm_num)).2.2.2.2.1⟩

/-- Bit population count over the k lowest binary digits, by peeling the low
bit k times. -/
def popcntAux : Nat → Nat → Nat
  | 0, _ => 0
  | fuel + 1, n => n % 2 + popcntAux fuel (n / 2)

/-- Bit population count of a 64-bit value, as std::popcount computes for the
uint64_t operand. -/
def popcnt (n : Nat) : Nat :=
  popcntAux 64 n

/-- Op_Popcount from the source: the operand is read as uint64_t and the
handler performs no dispatch on the operation size at all; the size parameter
is listed only to record that it is ignored. -/
def Op_Popcount (size : Nat) (src : Nat) : Nat :=
  popcnt (src % 2 ^ 64)

/-- Helper: the fuelled population count of a value below 2 ^ k counts the
set bits at positions below k. -/
theorem popcntAux_eq_filter_length :
    ∀ k n : Nat, n < 2 ^ k →
      popcntAux k n = ((List.range k).filter (fun i => n.testBit i)).length := by
  intro k
  induction k with
  | zero =>
    intro n hn
    interval_cases n
    simp [popcntAux]
  | succ k ih =>
    intro n hn
    have hhalf : n / 2 < 2 ^ k := by
      rw [Nat.div_lt_iff_lt_mul (by norm_num)]
      calc n < 2 ^ (k + 1) := hn
      _ = 2 ^ k * 2 := by rw [Nat.pow_succ]
    have hmap : (List.map (fun i => i + 1) (List.range k)).filter
        (fun i => n.testBit i) =
        ((List.range k).filter (fun i => (n / 2).testBit i)).map
          (fun i => i + 1) := by
      rw [List.filter_map]
      congr 1
      apply List.filter_congr
      intro i hi
      simp [Function.comp, Nat.testBit_add_one]
    have hrec := ih (n / 2) hhalf
    simp only [popcntAux, List.range_succ_eq_map, List.filter_cons, hrec]
    by_cases h0 : n.testBit 0
    · have h1 : n % 2 = 1 := by simpa using h0
      simp only [h0, hmap, List.length_map, List.length_cons, h1, if_pos]
      omega
    · have h1 : n % 2 = 0 := by
        rcases Nat.mod_two_eq_zero_or_one n with h | h
        · exact h
        · exfalso; apply h0; simpa using h
      simp [h0, hmap, h1]

/-- C10: Popcount ignores the declared operation size, counts the set bits of
the full 64-bit operand slot, and therefore depends on slot bits above the
declared width for sizes 1, 2 and 4 (the concrete pairs 2^63 versus 0 agree
on the declared widths but produce different results). -/
theorem popcount_full_width (size a : Nat) (ha : a < 2 ^ 64) :
    Op_Popcount size a = Op_Popcount 8 a ∧
    Op_Popcount size a = ((List.range 64).filter (fun i => a.testBit i)).length ∧
    (2 ^ 63 : Nat) % 2 ^ 8 = (0 : Nat) % 2 ^ 8 ∧
    Op_Popcount 1 (2 ^ 63) ≠ Op_Popcount 1 0 ∧
    (2 ^ 63 : Nat) % 2 ^ 16 = (0 : Nat) % 2 ^ 16 ∧
    Op_Popcount 2 (2 ^ 63) ≠ Op_Popcount 2 0 ∧
    (2 ^ 63 : Nat) % 2 ^ 32 = (0 : Nat) % 2 ^ 32 ∧
    Op_Popcount 4 (2 ^ 63) ≠ Op_Popcount 4 0 := by
  have key : Op_Popcount size a =
      ((List.range 64).filter (fun i => a.testBit i)).length := by
    unfold Op_Popcount popcnt
    rw [Nat.mod_eq_of_lt ha]
    exact popcntAux_eq_filter_length 64 a ha
  refine ⟨rfl, key, by norm_num, ?_, by norm_num, ?_, by norm_num, ?_⟩ <;> decide

/-- Witness for C10 at a concrete input. -/
theorem popcount_full_width_witness :
    Op_Popcount 1 0xFF00 = Op_Popcount 8 0xFF00 ∧
    Op_Popcount 1 0xFF00 =
      ((List.range 64).filter (fun i => (0xFF00 : Nat).testBit i)).length :=
  ⟨(popcount_full_width 1 0xFF00 (by norm_num)).1,
    (popcount_full_width 1 0xFF00 (by norm_num)).2.1⟩

/-- Op_LUDiv from the source: three operands, each read at the declared size;
the dividend is the high part shifted up by the size in bits or-ed with the
low part, the quotient is computed at twice the declared width and only its
low size bytes are stored. -/
def Op_LUDiv (size : Nat) (low high divisor : Nat) : Nat :=
  match size with
  | 2 => ((((high % 2 ^ 16) <<< 16) ||| (low % 2 ^ 16)) / (divisor % 2 ^ 16)) % 2 ^ 16
  | 4 => ((((high % 2 ^ 32) <<< 32) ||| (low % 2 ^ 32)) / (divisor % 2 ^ 32)) % 2 ^ 32
  | 8 => ((((high % 2 ^ 64) <<< 64) ||| (low % 2 ^ 64)) / (divisor % 2 ^ 64)) % 2 ^ 64
  | _ => 0

/-- Helper: the or of a value shifted up by k bits with a value below 2 ^ k
is exactly the sum. -/
theorem shiftLeft_lor_eq_add {l : Nat} (h k : Nat) (hl : l < 2 ^ k) :
    (h <<< k) ||| l = h * 2 ^ k + l := by
  rw [Nat.shiftLeft_eq, Nat.mul_comm, ← Nat.mul_add_lt_is_or hl, Nat.mul_comm]

/-- C5: LUDiv at size 4 with a non-zero divisor writes the low 32 bits of the
64-bit quotient of (high shifted up 32 bits or low) by the divisor; in
particular low = 0, high = 1, divisor = 2 yields 0x80000000. -/
theorem ludiv_size4 (low high divisor : Nat) (hl : low < 2 ^ 32)
    (hh : high < 2 ^ 32) (hd : divisor < 2 ^ 32) (hnz : divisor ≠ 0) :
    Op_LUDiv 4 low high divisor = (high * 2 ^ 32 + low) / divisor % 2 ^ 32 ∧
    Op_LUDiv 4 0 1 2 = 0x80000000 := by
  constructor
  · simp only [Op_LUDiv, Nat.mod_eq_of_lt hl, Nat.mod_eq_of_lt hh,
      Nat.mod_eq_of_lt hd, shiftLeft_lor_eq_add high 32 hl]
  · decide

/-- Witness for C5 at the spec's concrete scenario. -/
theorem ludiv_size4_witness : Op_LUDiv 4 0 1 2 = 0x80000000 :=
  (ludiv_size4 0 1 2 (by norm_num) (by norm_num) (by norm_num) (by norm_num)).2

/-- Op_Ror from the source: the rotate amount is masked by the bit width
minus one, and the handler ors the logical right shift by the masked amount
with the left shift by width minus the masked amount (each wrapping at the
operand width, as the C++ uint arithmetic does). -/
def Op_Ror (size : Nat) (src1 src2 : Nat) : Nat :=
  match size with
  | 4 =>
    let a := src1 % 2 ^ 32
    let r := (src2 % 2 ^ 32) &&& 31
    (a >>> r) ||| ((a <<< (32 - r)) % 2 ^ 32)
  | 8 =>
    let a := src1 % 2 ^ 64
    let r := (src2 % 2 ^ 64) &&& 63
    (a >>> r) ||| ((a <<< (64 - r)) % 2 ^ 64)
  | _ => 0

/-- Helper: reduction modulo a power of two distributes over bitwise or. -/
theorem lor_mod_two_pow (x y k : Nat) :
    (x ||| y) % 2 ^ k = (x % 2 ^ k) ||| (y % 2 ^ k) := by
  apply Nat.eq_of_testBit_eq
  intro i
  simp only [Nat.testBit_mod_two_pow, Nat.testBit_or]
  cases Nat.decLt i k with
  | isTrue h => simp [h]
  | isFalse h => simp [h]

/-- C6: Ror at sizes 4 and 8 writes the claimed rotate-right formula
((a >> (r mod w)) or (a << (w - r mod w))) mod 2 ^ w, and in particular
returns the operand unchanged when r mod w = 0. -/
theorem ror_formula (a r : Nat) :
    (a < 2 ^ 32 →
      Op_Ror 4 a r = ((a >>> (r % 32)) ||| (a <<< (32 - r % 32))) % 2 ^ 32 ∧
      (r % 32 = 0 → Op_Ror 4 a r = a)) ∧
    (a < 2 ^ 64 →
      Op_Ror 8 a r = ((a >>> (r % 64)) ||| (a <<< (64 - r % 64))) % 2 ^ 64 ∧
      (r % 64 = 0 → Op_Ror 8 a r = a)) := by
  have hmask32 : (r % 2 ^ 32) &&& 31 = r % 32 := by
    rw [show (31 : Nat) = 2 ^ 5 - 1 by norm_num, Nat.and_pow_two_sub_one_eq_mod,
      Nat.mod_mod_of_dvd r (by norm_num)]
  have hmask64 : (r % 2 ^ 64) &&& 63 = r % 64 := by
    rw [show (63 : Nat) = 2 ^ 6 - 1 by norm_num, Nat.and_pow_two_sub_one_eq_mod,
      Nat.mod_mod_of_dvd r (by norm_num)]
  constructor
  · intro ha
    have hshr : a >>> (r % 32) % 2 ^ 32 = a >>> (r % 32) := by
      apply Nat.mod_eq_of_lt
      rw [Nat.shiftRight_eq_div_pow]
      exact Nat.lt_of_le_of_lt (Nat.div_le_self a (2 ^ (r % 32))) ha
    have hform : Op_Ror 4 a r =
        ((a >>> (r % 32)) ||| (a <<< (32 - r % 32))) % 2 ^ 32 := by
      simp only [Op_Ror, Nat.mod_eq_of_lt ha, hmask32, lor_mod_two_pow, hshr]
    refine ⟨hform, fun hz => ?_⟩
    rw [hform, hz]
    simp only [Nat.sub_zero, Nat.shiftRight_zero, lor_mod_two_pow,
      Nat.mod_eq_of_lt ha, Nat.shiftLeft_eq]
    simp [Nat.mul_mod_left]
  · intro ha
    have hshr : a >>> (r % 64) % 2 ^ 64 = a >>> (r % 64) := by
      apply Nat.mod_eq_of_lt
      rw [Nat.shiftRight_eq_div_pow]
      exact Nat.lt_of_le_of_lt (Nat.div_le_self a (2 ^ (r % 64))) ha
    have hform : Op_Ror 8 a r =
        ((a >>> (r % 64)) ||| (a <<< (64 - r % 64))) % 2 ^ 64 := by
      simp only [Op_Ror, Nat.mod_eq_of_lt ha, hmask64, lor_mod_two_pow, hshr]
    refine ⟨hform, fun hz => ?_⟩
    rw [hform, hz]
    simp only [Nat.sub_zero, Nat.shiftRight_zero, lor_mod_two_pow,
      Nat.mod_eq_of_lt ha, Nat.shiftLeft_eq]
    simp [Nat.mul_mod_left]

/-- Witness for C6 at a concrete input. -/
theorem ror_formula_witness :
    Op_Ror 4 0x80000001 1 = ((0x80000001 >>> 1) ||| (0x80000001 <<< 31)) % 2 ^ 32 ∧
    Op_Ror 4 0x80000001 32 = 0x80000001 := by
  have h := ror_formula 0x80000001 1
  have h2 := ror_formula 0x80000001 32
  exact ⟨(h.1 (by norm_num)).1, (h2.1 (by norm_num)).2 (by norm_num)⟩

/-- Width mask used by Op_Bfi and Op_Bfe: (1 << width) - 1, with the explicit
all-ones special case for width 64 that the source guards. -/
def bfeMask (width : Nat) : Nat :=
  if width == 64 then 0xFFFFFFFFFFFFFFFF else (1 <<< width) - 1

/-- Op_Bfe from the source: mask the field at lsb out of the 64-bit operand
and shift it down to bit 0. -/
def Op_Bfe (lsb width src : Nat) : Nat :=
  ((src % 2 ^ 64) &&& ((bfeMask width <<< lsb) % 2 ^ 64)) >>> lsb

/-- Op_Bfi from the source: clear the field at lsb in the first operand
(DestMask is the uint64 complement of the shifted width mask) and or in the
masked second operand shifted up to lsb. -/
def Op_Bfi (lsb width src1 src2 : Nat) : Nat :=
  ((src1 % 2 ^ 64) &&& (((bfeMask width <<< lsb) % 2 ^ 64) ^^^ (2 ^ 64 - 1))) |||
    (((src2 % 2 ^ 64) &&& bfeMask width) <<< lsb) % 2 ^ 64

/-- C3: re-inserting the field extracted by Bfe at the same position is the
identity on the 64-bit operand: bits outside the field are preserved and the
field is reproduced. -/
theorem bfi_bfe_roundtrip (x lsb width : Nat) (hw : 1 ≤ width)
    (hlw : lsb + width ≤ 64) (hx : x < 2 ^ 64) :
    Op_Bfi lsb width x (Op_Bfe lsb width x) = x := by
  have hmask : bfeMask width = 2 ^ width - 1 := by
    by_cases h : width = 64
    · simp [bfeMask, h]
    · simp [bfeMask, h, Nat.shiftLeft_eq]
  have hx64 : ∀ j, 64 ≤ j → x.testBit j = false := fun j hj =>
    Nat.testBit_lt_two_pow
      (Nat.lt_of_lt_of_le hx (Nat.pow_le_pow_right (by norm_num) hj))
  apply Nat.eq_of_testBit_eq
  intro i
  simp only [Op_Bfi, Op_Bfe, hmask, Nat.mod_eq_of_lt hx, Nat.testBit_or,
    Nat.testBit_and, Nat.testBit_xor, Nat.testBit_mod_two_pow,
    Nat.testBit_shiftLeft, Nat.testBit_shiftRight, Nat.testBit_two_pow_sub_one]
  rcases Nat.lt_or_ge i 64 with h64 | h64
  · by_cases hl : lsb ≤ i
    · by_cases hw2 : i - lsb < width
      · rw [show lsb + (i - lsb) = i from by omega]
        cases hxi : x.testBit i <;>
          simp [h64, hl, hw2, hxi, Nat.lt_of_le_of_lt (Nat.sub_le i lsb) h64]
      · cases hxi : x.testBit i <;> simp [h64, hl, hw2, hxi]
    · cases hxi : x.testBit i <;> simp [h64, hl, hxi]
  · have hge : ¬ i < 64 := Nat.not_lt_of_ge h64
    by_cases hl : lsb ≤ i
    · simp [hge, hx64 i h64, hl]
    · simp [hge, hx64 i h64, hl]

/-- Witness for C3 at a concrete input. -/
theorem bfi_bfe_roundtrip_witness :
    Op_Bfi 16 8 0xDEADBEEF (Op_Bfe 16 8 0xDEADBEEF) = 0xDEADBEEF :=
  bfi_bfe_roundtrip 0xDEADBEEF 16 8 (by norm_num) (by norm_num) (by norm_num)

/-- Modelled from the spec: the floating-point operand values read by
Op_FCmp.  Only isnan, the ordered less-than and the ordered equality of the
two operands matter to FCmp, so a float or double value is modelled as an
optional rational: none is a NaN, and comparisons involving NaN are false as
in IEEE 754. -/
def fpIsNan (x : Option ℚ) : Bool := x.isNone

/-- Ordered less-than on the modelled floating-point values: false whenever
either side is NaN. -/
def fpLt : Option ℚ → Option ℚ → Bool
  | some a, some b => decide (a < b)
  | _, _ => false

/-- Ordered equality on the modelled floating-point values: false whenever
either side is NaN. -/
def fpEq : Option ℚ → Option ℚ → Bool
  | some a, some b => decide (a = b)
  | _, _ => false

/-- Modelled from the spec: the FCMP result flag bit indices are declared in
IR headers not under src/; only their distinctness matters here. -/
def FCMP_FLAG_LT : Nat := 0

/-- Modelled from the spec: bit index of the unordered FCMP result flag. -/
def FCMP_FLAG_UNORDERED : Nat := 1

/-- Modelled from the spec: bit index of the equal FCMP result flag. -/
def FCMP_FLAG_EQ : Nat := 2

/-- Op_FCmp from the source: element size 4 compares floats and element size
8 compares doubles with an identical flag computation; Unordered is isnan of
either operand; the LT and EQ result bits are set when requested and either
the predicate or Unordered holds, the UNORDERED result bit when requested
and Unordered holds. -/
def Op_FCmp (elementSize flags : Nat) (src1 src2 : Option ℚ) : Nat :=
  if elementSize = 4 then
    let unordered := fpIsNan src1 || fpIsNan src2
    let r1 : Nat := if (flags &&& (1 <<< FCMP_FLAG_LT) != 0) &&
        (unordered || fpLt src1 src2) then 1 <<< FCMP_FLAG_LT else 0
    let r2 : Nat := if (flags &&& (1 <<< FCMP_FLAG_UNORDERED) != 0) &&
        unordered then r1 ||| (1 <<< FCMP_FLAG_UNORDERED) else r1
    if (flags &&& (1 <<< FCMP_FLAG_EQ) != 0) &&
        (unordered || fpEq src1 src2) then r2 ||| (1 <<< FCMP_FLAG_EQ) else r2
  else
    let unordered := fpIsNan src1 || fpIsNan src2
    let r1 : Nat := if (flags &&& (1 <<< FCMP_FLAG_LT) != 0) &&
        (unordered || fpLt src1 src2) then 1 <<< FCMP_FLAG_LT else 0
    let r2 : Nat := if (flags &&& (1 <<< FCMP_FLAG_UNORDERED) != 0) &&
        unordered then r1 ||| (1 <<< FCMP_FLAG_UNORDERED) else r1
    if (flags &&& (1 <<< FCMP_FLAG_EQ) != 0) &&
        (unordered || fpEq src1 src2) then r2 ||| (1 <<< FCMP_FLAG_EQ) else r2

/-- Helper: the bit test of a flag mask agrees with the non-zeroness of the
and with the corresponding single-bit mask. -/
theorem flag_and_ne_zero (flags k : Nat) :
    ((flags &&& (1 <<< k)) != 0) = flags.testBit k := by
  rw [Nat.one_shiftLeft, Nat.and_two_pow]
  cases h : flags.testBit k <;> simp [h, Nat.pos_iff_ne_zero, Nat.pow_eq_zero]

/-- C4: with any NaN operand FCmp sets every requested flag among LT, EQ and
UNORDERED, and regardless of operands the UNORDERED result bit, when
requested, is set exactly when either operand is NaN. -/
theorem fcmp_nan_and_unordered (esize flags : Nat) (src1 src2 : Option ℚ) :
    ((fpIsNan src1 || fpIsNan src2) = true →
      ∀ k, (k = FCMP_FLAG_LT ∨ k = FCMP_FLAG_UNORDERED ∨ k = FCMP_FLAG_EQ) →
        flags.testBit k = true →
        (Op_FCmp esize flags src1 src2).testBit k = true) ∧
    (flags.testBit FCMP_FLAG_UNORDERED = true →
      ((Op_FCmp esize flags src1 src2).testBit FCMP_FLAG_UNORDERED = true ↔
        (fpIsNan src1 || fpIsNan src2) = true)) := by
  unfold Op_FCmp
  constructor
  · intro hu k hk htb
    rcases hk with rfl | rfl | rfl <;>
      simp only [FCMP_FLAG_LT, FCMP_FLAG_UNORDERED, FCMP_FLAG_EQ,
        flag_and_ne_zero] at htb ⊢ <;>
      split <;>
      (by_cases h0 : flags.testBit 0 <;> by_cases h1 : flags.testBit 1 <;>
        by_cases h2 : flags.testBit 2 <;>
        first
          | exact absurd htb h0
          | exact absurd htb h1
          | exact absurd htb h2
          | (simp [h0, h1, h2, hu, htb] <;> decide))
  · intro htb
    simp only [FCMP_FLAG_LT, FCMP_FLAG_UNORDERED, FCMP_FLAG_EQ,
      flag_and_ne_zero] at htb ⊢
    split <;>
      (by_cases hu : (fpIsNan src1 || fpIsNan src2) = true <;>
        by_cases h0 : flags.testBit 0 <;> by_cases h2 : flags.testBit 2 <;>
        by_cases hlt : fpLt src1 src2 = true <;>
        by_cases heq : fpEq src1 src2 = true <;>
        (simp_all <;> decide))

/-- Witness for C4 at a concrete input: NaN against 1.0 with all three flags
requested. -/
theorem fcmp_nan_and_unordered_witness :
    (Op_FCmp 4 7 none (some 1)).testBit 0 = true ∧
    ((Op_FCmp 4 7 none (some 1)).testBit FCMP_FLAG_UNORDERED = true ↔
      (fpIsNan none || fpIsNan (some (1 : ℚ))) = true) :=
  ⟨(fcmp_nan_and_unordered 4 7 none (some 1)).1 (by decide) 0 (Or.inl rfl)
      (by decide),
    (fcmp_nan_and_unordered 4 7 none (some 1)).2 (by decide)⟩

/-- BucketList.Find scanning inside one bucket, from the source loop body: a
zero item stops the walk with result false, an item satisfying the predicate
stops with true, otherwise continue; none means the bucket was exhausted and
the walk continues into the next bucket. -/
def BucketList.findInBucket (pred : Nat → Bool) : List Nat → Option Bool
  | [] => none
  | x :: xs =>
    if x = 0 then some false
    else if pred x then some true
    else findInBucket pred xs

/-- BucketList.Find from the source: scan the chain bucket by bucket (the
source asserts a next bucket exists when a bucket ends unterminated; an
absent one yields false here, which a well-formed chain never exercises). -/
def BucketList.Find (pred : Nat → Bool) : List (List Nat) → Bool
  | [] => false
  | b :: rest =>
    match findInBucket pred b with
    | some r => r
    | none => Find pred rest

/-- Fresh overflow bucket as BucketList::Clear leaves it: slot 0 is zero and
the remaining slots are poisoned with 0xDEADBEEF in debug builds. -/
def BucketList.freshBucket (S : Nat) : List Nat :=
  0 :: List.replicate (S - 1) 0xDEADBEEF

/-- BucketList.Append acting on the tail bucket, from the source: find the
first zero slot, store the value there, then either re-terminate at the next
slot or allocate a fresh overflow bucket when the stored slot was the last
one (or when no zero slot exists, in which case nothing is stored). -/
def BucketList.appendTail (S v : Nat) (b : List Nat) : List (List Nat) :=
  let i := b.findIdx (fun x => x == 0)
  if i < S - 1 then [(b.set i v).set (i + 1) 0]
  else if i < S then [b.set i v, freshBucket S]
  else [b, freshBucket S]

/-- BucketList.Append from the source: walk to the tail bucket and insert
there. -/
def BucketList.Append (S v : Nat) : List (List Nat) → List (List Nat)
  | [] => []
  | [b] => appendTail S v b
  | b :: rest => b :: Append S v rest

/-- Second loop of BucketList.Erase once the scan has moved past the bucket
holding the erased value: locate the terminator, return the last stored item
and the chain suffix with that item zeroed; a trailing bucket whose first
slot is zero is released together with everything after it, exactly as
resetting the unique_ptr does. -/
def BucketList.eraseTail (S : Nat) : List Nat → List (List Nat) → Nat × List (List Nat)
  | b, rest =>
    let j := b.findIdx (fun x => x == 0)
    if j < S then (b.getD (j - 1) 0, (b.set (j - 1) 0) :: rest)
    else
      match rest with
      | [] => (0, [b])
      | next :: rest2 =>
        if next.getD 0 1 == 0 then (b.getD (S - 1) 0, [b.set (S - 1) 0])
        else
          let p := eraseTail S next rest2
          (p.1, b :: p.2)

/-- Second loop of BucketList.Erase starting at the found slot fi of bucket
b: scan for the terminator from fi on, move the item just before the
terminator into slot fi and zero its old slot, releasing a trailing empty
overflow bucket when the scan crosses into one. -/
def BucketList.eraseHere (S fi : Nat) (b : List Nat) (rest : List (List Nat)) :
    List (List Nat) :=
  let j := fi + (b.drop fi).findIdx (fun x => x == 0)
  if j < S then ((b.set fi (b.getD (j - 1) 0)).set (j - 1) 0) :: rest
  else
    match rest with
    | [] => [b]
    | next :: rest2 =>
      if next.getD 0 1 == 0 then [(b.set fi (b.getD (S - 1) 0)).set (S - 1) 0]
      else
        let p := eraseTail S next rest2
        (b.set fi p.1) :: p.2

/-- BucketList.Erase from the source: the first loop locates the bucket and
slot holding the value (scanning every slot of each bucket in order), the
second loop backfills from the last stored item. -/
def BucketList.Erase (S v : Nat) : List (List Nat) → List (List Nat)
  | [] => []
  | b :: rest =>
    if b.findIdx (fun x => x == v) < S then
      eraseHere S (b.findIdx (fun x => x == v)) b rest
    else b :: Erase S v rest

/-- The stored items of a chain: the prefix of the concatenated slots before
the first zero terminator. -/
def BucketList.liveOf : List (List Nat) → List Nat
  | [] => []
  | b :: rest =>
    if 0 ∈ b then b.takeWhile (fun x => x != 0)
    else b ++ liveOf rest

/-- A full bucket: S slots, all holding non-zero items. -/
def BucketList.fullB (S : Nat) (b : List Nat) : Prop :=
  b.length = S ∧ ∀ x ∈ b, x ≠ 0

/-- A terminated bucket: S slots holding non-zero items up to a zero
terminator, with arbitrary slot contents after it. -/
def BucketList.lastB (S : Nat) (b : List Nat) : Prop :=
  b.length = S ∧ ∃ l j, b = l ++ 0 :: j ∧ ∀ x ∈ l, x ≠ 0

/-- Well-formed chain: a non-empty list of buckets, all full except the
final one, which is terminated; this is the BucketList invariant that Next
exists exactly while the bucket before it is full. -/
def BucketList.WF (S : Nat) : List (List Nat) → Prop
  | [] => False
  | [b] => lastB S b
  | b :: rest => fullB S b ∧ WF S rest

/-- Scanning a bucket whose items are all non-zero either hits a match or
exhausts the bucket. -/
theorem BucketList.findInBucket_all_nonzero (pred : Nat → Bool) (b : List Nat)
    (hb : ∀ x ∈ b, x ≠ 0) :
    findInBucket pred b = if b.any pred then some true else none := by
  induction b with
  | nil => simp [findInBucket]
  | cons x xs ih =>
    have hx : x ≠ 0 := hb x (List.mem_cons_self x xs)
    by_cases hp : pred x
    · simp [findInBucket, hx, hp]
    · have := ih (fun y hy => hb y (List.mem_cons_of_mem x hy))
      simp [findInBucket, hx, hp, this]

/-- Scanning a terminated bucket returns whether the predicate holds on the
stored prefix. -/
theorem BucketList.findInBucket_terminated (pred : Nat → Bool) (l j : List Nat)
    (hl : ∀ x ∈ l, x ≠ 0) :
    findInBucket pred (l ++ 0 :: j) = some (l.any pred) := by
  induction l with
  | nil => simp [findInBucket]
  | cons x xs ih =>
    have hx : x ≠ 0 := hl x (List.mem_cons_self x xs)
    by_cases hp : pred x
    · simp [findInBucket, hx, hp]
    · have := ih (fun y hy => hl y (List.mem_cons_of_mem x hy))
      simp [findInBucket, hx, hp, this]

/-- The stored prefix of a terminated bucket. -/
theorem BucketList.takeWhile_terminated (l j : List Nat)
    (hl : ∀ x ∈ l, x ≠ 0) :
    (l ++ 0 :: j).takeWhile (fun x => x != 0) = l := by
  induction l with
  | nil => simp
  | cons x xs ih =>
    have hx : x ≠ 0 := hl x (List.mem_cons_self x xs)
    have := ih (fun y hy => hl y (List.mem_cons_of_mem x hy))
    simp [List.takeWhile_cons, hx, this]

/-- liveOf a chain headed by a terminated bucket. -/
theorem BucketList.liveOf_cons_term (l j : List Nat) (rest : List (List Nat))
    (hl : ∀ x ∈ l, x ≠ 0) :
    liveOf ((l ++ 0 :: j) :: rest) = l := by
  have h0 : (0 : Nat) ∈ l ++ 0 :: j := by simp
  simp [liveOf, h0, takeWhile_terminated l j hl]

/-- liveOf a chain headed by a bucket with no zero slot. -/
theorem BucketList.liveOf_cons_full (b : List Nat) (rest : List (List Nat))
    (hb : ∀ x ∈ b, x ≠ 0) :
    liveOf (b :: rest) = b ++ liveOf rest := by
  have h0 : ¬(0 : Nat) ∈ b := fun h => hb 0 h rfl
  simp [liveOf, h0]

/-- The first zero slot of a terminated bucket is the terminator. -/
theorem BucketList.findIdx_zero_terminated (l j : List Nat)
    (hl : ∀ x ∈ l, x ≠ 0) :
    (l ++ 0 :: j).findIdx (fun x => x == 0) = l.length := by
  induction l with
  | nil => simp [List.findIdx_cons]
  | cons x xs ih =>
    have hx : x ≠ 0 := hl x (List.mem_cons_self x xs)
    have := ih (fun y hy => hl y (List.mem_cons_of_mem x hy))
    have hbeq : (x == 0) = false := by simp [hx]
    simp [List.findIdx_cons, hbeq, this]

/-- A bucket with no zero slot has no first zero slot. -/
theorem BucketList.findIdx_zero_full (b : List Nat) (hb : ∀ x ∈ b, x ≠ 0) :
    b.findIdx (fun x => x == 0) = b.length :=
  List.findIdx_eq_length_of_false (fun x hx => by simp [hb x hx])

/-- Stored items of a well-formed chain are non-zero. -/
theorem BucketList.liveOf_nonzero (S : Nat) :
    ∀ c : List (List Nat), WF S c → ∀ x ∈ liveOf c, x ≠ 0 := by
  intro c
  induction c with
  | nil => intro h; exact absurd h (by simp [WF])
  | cons b rest ih =>
    intro h x hx
    cases rest with
    | nil =>
      obtain ⟨hlen, l, j, rfl, hl⟩ := h
      rw [liveOf_cons_term l j [] hl] at hx
      exact hl x hx
    | cons r rs =>
      obtain ⟨⟨hlen, hb⟩, hrest⟩ := h
      rw [liveOf_cons_full b _ hb] at hx
      rcases List.mem_append.mp hx with hxb | hxr
      · exact hb x hxb
      · exact ih hrest x hxr

/-- A well-formed chain is non-empty. -/
theorem BucketList.WF_ne_nil {S : Nat} {c : List (List Nat)} (h : WF S c) :
    c ≠ [] := by
  intro hc
  rw [hc] at h
  exact absurd h (by simp [WF])

/-- Find on a well-formed chain tests the predicate on the stored items. -/
theorem BucketList.find_eq_any (S : Nat) (pred : Nat → Bool) :
    ∀ c : List (List Nat), WF S c → Find pred c = (liveOf c).any pred := by
  intro c
  induction c with
  | nil => intro h; exact absurd h (by simp [WF])
  | cons b rest ih =>
    intro h
    cases rest with
    | nil =>
      obtain ⟨hlen, l, j, rfl, hl⟩ := h
      rw [liveOf_cons_term l j [] hl]
      simp [Find, findInBucket_terminated pred l j hl]
    | cons r rs =>
      obtain ⟨⟨hlen, hb⟩, hrest⟩ := h
      rw [liveOf_cons_full b _ hb]
      have hfb := findInBucket_all_nonzero pred b hb
      by_cases hany : b.any pred
      · have hstep : Find pred (b :: r :: rs) = true := by
          show (match findInBucket pred b with
            | some x => x
            | none => Find pred (r :: rs)) = true
          rw [hfb, if_pos hany]
        rw [hstep]
        simp [hany]
      · have hstep : Find pred (b :: r :: rs) = Find pred (r :: rs) := by
          show (match findInBucket pred b with
            | some x => x
            | none => Find pred (r :: rs)) = Find pred (r :: rs)
          rw [hfb, if_neg hany]
        rw [hstep, ih hrest]
        simp [hany]

/-- Append on a well-formed chain keeps it well-formed and appends the value
to the stored items. -/
theorem BucketList.append_spec (S v : Nat) (hv : v ≠ 0) :
    ∀ c : List (List Nat), WF S c →
      WF S (Append S v c) ∧ liveOf (Append S v c) = liveOf c ++ [v] := by
  intro c
  induction c with
  | nil => intro h; exact absurd h (by simp [WF])
  | cons b rest ih =>
    intro h
    cases rest with
    | nil =>
      obtain ⟨hlen, l, j, rfl, hl⟩ := h
      have hidx := findIdx_zero_terminated l j hl
      have hlS : l.length + 1 + j.length = S := by
        have := hlen
        simp at this
        omega
      rw [liveOf_cons_term l j [] hl]
      show WF S (appendTail S v (l ++ 0 :: j)) ∧
        liveOf (appendTail S v (l ++ 0 :: j)) = l ++ [v]
      unfold appendTail
      rw [hidx]
      by_cases hcase : l.length < S - 1
      · rw [if_pos hcase]
        have hj : j ≠ [] := by
          intro hj
          rw [hj] at hlS
          simp at hlS
          omega
        obtain ⟨j0, jt, rfl⟩ : ∃ j0 jt, j = j0 :: jt := by
          cases j with
          | nil => exact absurd rfl hj
          | cons j0 jt => exact ⟨j0, jt, rfl⟩
        have hset1 : (l ++ 0 :: j0 :: jt).set l.length v = l ++ v :: j0 :: jt := by
          rw [List.set_append_right _ _ (Nat.le_refl _)]
          simp
        have hset2 : (l ++ v :: j0 :: jt).set (l.length + 1) 0 =
            l ++ v :: 0 :: jt := by
          rw [show l ++ v :: j0 :: jt = (l ++ [v]) ++ j0 :: jt by simp]
          rw [List.set_append_right _ _ (by simp)]
          simp
        rw [hset1, hset2]
        have hlv : ∀ x ∈ l ++ [v], x ≠ 0 := by
          intro x hx
          rcases List.mem_append.mp hx with hx | hx
          · exact hl x hx
          · simp at hx; omega
        constructor
        · refine ⟨by simpa using hlen, l ++ [v], jt, by simp, hlv⟩
        · have := liveOf_cons_term (l ++ [v]) jt [] hlv
          simpa using this
      · rw [if_neg hcase]
        have hlen2 : l.length < S := by omega
        rw [if_pos hlen2]
        have hj : j = [] := by
          cases j with
          | nil => rfl
          | cons j0 jt => simp at hlS; omega
        subst hj
        have hset1 : (l ++ 0 :: ([] : List Nat)).set l.length v = l ++ [v] := by
          rw [List.set_append_right _ _ (Nat.le_refl _)]
          simp
        rw [hset1]
        have hlv : ∀ x ∈ l ++ [v], x ≠ 0 := by
          intro x hx
          rcases List.mem_append.mp hx with hx | hx
          · exact hl x hx
          · simp at hx; omega
        have hS1 : 1 ≤ S := by omega
        constructor
        · refine ⟨⟨by simpa using hlen, hlv⟩, ?_⟩
          refine ⟨by simp [freshBucket]; omega, [], List.replicate (S - 1) 0xDEADBEEF,
            by simp [freshBucket], by simp⟩
        · rw [liveOf_cons_full (l ++ [v]) _ hlv]
          have : liveOf [freshBucket S] = [] := by
            have := liveOf_cons_term ([] : List Nat)
              (List.replicate (S - 1) 0xDEADBEEF) [] (by simp)
            simpa [freshBucket] using this
          simp [this]
    | cons r rs =>
      obtain ⟨⟨hlen, hb⟩, hrest⟩ := h
      obtain ⟨hwf, hlive⟩ := ih hrest
      show WF S (b :: Append S v (r :: rs)) ∧
        liveOf (b :: Append S v (r :: rs)) = liveOf (b :: r :: rs) ++ [v]
      constructor
      · cases ha : Append S v (r :: rs) with
        | nil => rw [ha] at hwf; exact absurd hwf (by simp [WF])
        | cons a as =>
          rw [ha] at hwf
          exact ⟨⟨hlen, hb⟩, hwf⟩
      · rw [liveOf_cons_full b _ hb, liveOf_cons_full b _ hb, hlive]
        simp

/-- Decomposition of a non-empty list as its dropLast plus its last item, in
getLastD form. -/
theorem BucketList.concat_decomp {l : List Nat} (h : l ≠ []) :
    ∃ l0 a, l = l0 ++ [a] ∧ l.getLastD 0 = a ∧ l.dropLast = l0 := by
  rcases List.eq_nil_or_concat l with rfl | ⟨l0, a, rfl⟩
  · exact absurd rfl h
  · refine ⟨l0, a, List.concat_eq_append l0 a, ?_, ?_⟩
    · rw [List.concat_eq_append]
      exact List.getLastD_concat 0 a l0
    · rw [List.concat_eq_append]
      exact List.dropLast_concat

/-- Splitting a list at a position. -/
theorem BucketList.split_at_idx (l : List Nat) (fi : Nat) (h : fi < l.length) :
    ∃ A B, l = A ++ l.getD fi 0 :: B ∧ A.length = fi := by
  refine ⟨l.take fi, l.drop (fi + 1), ?_, ?_⟩
  · rw [List.getD_eq_getElem _ _ h]
    conv_lhs => rw [← List.take_append_drop fi l]
    rw [List.drop_eq_getElem_cons h]
  · simp [List.length_take]
    omega

/-- Setting a slot replaces its count contribution. -/
theorem BucketList.count_set_nat (l : List Nat) (fi w x : Nat)
    (hfi : fi < l.length) :
    (l.set fi w).count x + (if l.getD fi 0 = x then 1 else 0) =
      l.count x + (if w = x then 1 else 0) := by
  obtain ⟨A, B, hl, hA⟩ := split_at_idx l fi hfi
  have hset : l.set fi w = A ++ w :: B := by
    conv_lhs => rw [hl]
    rw [List.set_append_right _ _ (Nat.le_of_eq hA)]
    simp [hA]
  rw [hset]
  conv_rhs => rw [hl]
  simp only [List.count_append, List.count_cons]
  by_cases h1 : l.getD fi 0 = x <;> by_cases h2 : w = x <;>
    simp [h1, h2] <;> omega

/-- Overwriting a slot with the last item and dropping the last slot removes
exactly the overwritten value, up to permutation. -/
theorem BucketList.set_getLastD_dropLast_perm (l : List Nat) (fi : Nat)
    (hfi : fi < l.length) :
    List.Perm ((l.set fi (l.getLastD 0)).dropLast) (l.erase (l.getD fi 0)) := by
  have hne : l ≠ [] := by
    intro h
    rw [h] at hfi
    simp at hfi
  obtain ⟨l0, a, rfl, hlast, hdrop⟩ := concat_decomp hne
  rw [hlast]
  by_cases hcase : fi < l0.length
  · have hv : (l0 ++ [a]).getD fi 0 = l0.getD fi 0 := List.getD_append _ _ _ _ hcase
    have hvmem : l0.getD fi 0 ∈ l0 := by
      rw [List.getD_eq_getElem _ _ hcase]
      exact List.getElem_mem hcase
    have hset : (l0 ++ [a]).set fi a = (l0.set fi a) ++ [a] :=
      List.set_append_left _ _ hcase
    rw [hset, List.dropLast_concat, hv,
      List.erase_append_left [a] hvmem]
    rw [List.perm_iff_count]
    intro x
    have hcount := count_set_nat l0 fi a x hcase
    have herase := List.count_erase x (l0.getD fi 0) l0
    have hpos : l0.getD fi 0 = x → 0 < l0.count x := by
      intro hx
      rw [← hx]
      exact List.count_pos_iff.mpr hvmem
    simp only [List.count_append, List.count_singleton]
    by_cases h1 : l0.getD fi 0 = x <;> by_cases h2 : a = x <;>
      simp only [h1, h2, beq_iff_eq, if_pos, if_neg, beq_self_eq_true] at hcount herase ⊢ <;>
      simp_all <;> omega
  · have hfieq : fi = l0.length := by
      have := hfi
      simp at this
      omega
    subst hfieq
    have hv : (l0 ++ [a]).getD l0.length 0 = a := by
      rw [List.getD_append_right _ _ _ _ (Nat.le_refl _)]
      simp
    have hset : (l0 ++ [a]).set l0.length a = l0 ++ [a] := by
      rw [List.set_append_right _ _ (Nat.le_refl _)]
      simp
    rw [hset, List.dropLast_concat, hv]
    rw [List.perm_iff_count]
    intro x
    have herase := List.count_erase x a (l0 ++ [a])
    simp only [List.count_append, List.count_singleton] at herase
    rw [herase]
    by_cases h2 : a = x
    · subst h2
      simp
    · have : (x == a) = false := by simp [h2]; omega
      simp_all

/-- The second Erase loop, once past the found bucket, hands back the last
stored item, removes it from the chain and keeps the chain well-formed. -/
theorem BucketList.eraseTail_spec (S : Nat) :
    ∀ (rest : List (List Nat)) (b : List Nat),
      WF S (b :: rest) → b.getD 0 0 ≠ 0 →
      liveOf (b :: rest) ≠ [] ∧
      (eraseTail S b rest).1 = (liveOf (b :: rest)).getLastD 0 ∧
      liveOf (eraseTail S b rest).2 = (liveOf (b :: rest)).dropLast ∧
      WF S (eraseTail S b rest).2 := by
  intro rest
  induction rest with
  | nil =>
    intro b hwf hd
    obtain ⟨hlen, l, j, rfl, hl⟩ := hwf
    have hlne : l ≠ [] := by
      intro h
      subst h
      simp at hd
    have hidx : (l ++ 0 :: j).findIdx (fun x => x == 0) = l.length :=
      findIdx_zero_terminated l j hl
    have hlt : l.length < S := by
      have := hlen
      simp at this
      omega
    obtain ⟨l0, a, hl0, hlast, hdrop⟩ := concat_decomp hlne
    have hl0nz : ∀ x ∈ l0, x ≠ 0 := fun x hx =>
      hl x (by rw [hl0]; exact List.mem_append_left _ hx)
    have hlen0 : l.length - 1 = l0.length := by
      rw [hl0]
      simp
    have hassoc : l ++ 0 :: j = l0 ++ a :: 0 :: j := by
      rw [hl0]
      simp
    have hgetd : (l ++ 0 :: j).getD (l.length - 1) 0 = a := by
      rw [hassoc, hlen0, List.getD_append_right _ _ _ _ (Nat.le_refl _)]
      simp
    have hset : (l ++ 0 :: j).set (l.length - 1) 0 = l0 ++ 0 :: 0 :: j := by
      rw [hassoc, hlen0, List.set_append_right _ _ (Nat.le_refl _)]
      simp
    have hunfold : eraseTail S (l ++ 0 :: j) [] =
        (a, [l0 ++ 0 :: 0 :: j]) := by
      simp only [eraseTail, hidx, if_pos hlt, hgetd, hset]
    rw [hunfold, liveOf_cons_term l j [] hl]
    refine ⟨hlne, hlast.symm, ?_, ?_⟩
    · rw [liveOf_cons_term l0 (0 :: j) [] hl0nz, hdrop]
    · show lastB S (l0 ++ 0 :: 0 :: j)
      refine ⟨?_, l0, 0 :: j, rfl, hl0nz⟩
      have h1 : (l ++ 0 :: j).length = S := hlen
      have h2 : l.length = l0.length + 1 := by rw [hl0]; simp
      simp at h1 ⊢
      omega
  | cons next rest2 ih =>
    intro b hwf hd
    obtain ⟨⟨hlen, hb⟩, hrest⟩ := hwf
    have hbne : b ≠ [] := by
      intro h
      subst h
      simp at hd
    have hS1 : 1 ≤ S := by
      rw [← hlen]
      exact List.length_pos.mpr hbne
    have hidx : b.findIdx (fun x => x == 0) = b.length := findIdx_zero_full b hb
    have hnotlt : ¬ b.findIdx (fun x => x == 0) < S := by
      rw [hidx, hlen]
      exact Nat.lt_irrefl S
    have hnextne : next ≠ [] := by
      intro h
      cases rest2 with
      | nil =>
        obtain ⟨hlen2, l2, j2, heq, hl2⟩ := hrest
        rw [h] at hlen2
        simp at hlen2
        omega
      | cons r rs =>
        obtain ⟨⟨hlen2, hnz⟩, hx⟩ := hrest
        rw [h] at hlen2
        simp at hlen2
        omega
    by_cases hnext0 : next.getD 0 1 = 0
    · have hbeq : (next.getD 0 1 == 0) = true := beq_iff_eq.mpr hnext0
      have hrest2 : rest2 = [] := by
        cases rest2 with
        | nil => rfl
        | cons r rs =>
          obtain ⟨⟨hlen2, hnz⟩, hx⟩ := hrest
          exfalso
          cases next with
          | nil => exact hnextne rfl
          | cons n0 ns =>
            exact hnz n0 (List.mem_cons_self n0 ns) (by simpa using hnext0)
      subst hrest2
      obtain ⟨hlen2, l2, j2, hnexteq, hl2⟩ := hrest
      have hl2nil : l2 = [] := by
        cases l2 with
        | nil => rfl
        | cons x l2t =>
          exfalso
          apply hl2 x (List.mem_cons_self x l2t)
          have : next.getD 0 1 = x := by rw [hnexteq]; rfl
          omega
      subst hl2nil
      simp only [List.nil_append] at hnexteq
      obtain ⟨b0, a, hb0, hblast, hbdrop⟩ := concat_decomp hbne
      have hb0nz : ∀ x ∈ b0, x ≠ 0 := fun x hx =>
        hb x (by rw [hb0]; exact List.mem_append_left _ hx)
      have hlen0 : S - 1 = b0.length := by
        rw [← hlen, hb0]
        simp
      have hgetd : b.getD (S - 1) 0 = a := by
        rw [hb0, hlen0, List.getD_append_right _ _ _ _ (Nat.le_refl _)]
        simp
      have hset : b.set (S - 1) 0 = b0 ++ 0 :: [] := by
        rw [hb0, hlen0, List.set_append_right _ _ (Nat.le_refl _)]
        simp
      have hunfold : eraseTail S b (next :: []) = (a, [b0 ++ 0 :: []]) := by
        simp only [eraseTail]
        rw [hidx, hlen, if_neg (Nat.lt_irrefl S), hbeq, if_pos rfl, hgetd, hset]
      rw [hunfold]
      have hlivenext : liveOf (next :: ([] : List (List Nat))) = [] := by
        rw [hnexteq]
        exact liveOf_cons_term [] j2 [] (by simp)
      rw [liveOf_cons_full b _ hb, hlivenext, List.append_nil]
      refine ⟨hbne, hblast.symm, ?_, ?_⟩
      · rw [liveOf_cons_term b0 [] [] hb0nz, hbdrop]
      · show lastB S (b0 ++ 0 :: [])
        refine ⟨?_, b0, [], rfl, hb0nz⟩
        rw [← hlen, hb0]
        simp
    · have hbeq : (next.getD 0 1 == 0) = false := beq_eq_false_iff_ne.mpr hnext0
      have hd2 : next.getD 0 0 ≠ 0 := by
        cases next with
        | nil => exact absurd rfl hnextne
        | cons n0 ns =>
          intro h
          exact hnext0 (by simp_all)
      obtain ⟨hLne, hfst, hlive, hwf2⟩ := ih next hrest hd2
      have hunfold : eraseTail S b (next :: rest2) =
          ((eraseTail S next rest2).1, b :: (eraseTail S next rest2).2) := by
        simp only [eraseTail]
        rw [hidx, hlen, if_neg (Nat.lt_irrefl S), hbeq]
        simp
      rw [hunfold]
      obtain ⟨L0, la, hL0, hLlast, hLdrop⟩ := concat_decomp hLne
      rw [liveOf_cons_full b _ hb]
      refine ⟨?_, ?_, ?_, ?_⟩
      · simp [hL0]
      · rw [hfst, hLlast, hL0, ← List.append_assoc, List.getLastD_concat]
      · rw [liveOf_cons_full b _ hb, hlive, hLdrop, hL0, ← List.append_assoc,
          List.dropLast_concat]
      · cases he : (eraseTail S next rest2).2 with
        | nil =>
          rw [he] at hwf2
          exact absurd hwf2 (by simp [WF])
        | cons e es =>
          rw [he] at hwf2
          exact ⟨⟨hlen, hb⟩, hwf2⟩

/-- The slot before the terminator holds the last stored item. -/
theorem BucketList.getD_last (l : List Nat) (h : l ≠ []) :
    l.getD (l.length - 1) 0 = l.getLastD 0 := by
  obtain ⟨l0, a, rfl, hlast, hdrop⟩ := concat_decomp h
  rw [hlast]
  have : (l0 ++ [a]).length - 1 = l0.length := by simp
  rw [this, List.getD_append_right _ _ _ _ (Nat.le_refl _)]
  simp

/-- Zeroing the final slot is dropLast plus a zero. -/
theorem BucketList.set_last_zero (M : List Nat) (h : M ≠ []) :
    M.set (M.length - 1) 0 = M.dropLast ++ [0] := by
  obtain ⟨M0, a, rfl, hlast, hdrop⟩ := concat_decomp h
  have : (M0 ++ [a]).length - 1 = M0.length := by simp
  rw [this, List.set_append_right _ _ (Nat.le_refl _), hdrop]
  simp

/-- The second Erase loop when the value sits in a terminated bucket: the
last stored item overwrites the found slot and its old slot is zeroed. -/
theorem BucketList.eraseHere_term (S fi : Nat) (l j : List Nat)
    (rest : List (List Nat)) (hfi : fi < l.length) (hl : ∀ x ∈ l, x ≠ 0)
    (hlenS : (l ++ 0 :: j).length = S) :
    eraseHere S fi (l ++ 0 :: j) rest =
      ((l.set fi (l.getLastD 0)).dropLast ++ 0 :: 0 :: j) :: rest := by
  have hlne : l ≠ [] := by
    intro h
    rw [h] at hfi
    simp at hfi
  have hdrop : (l ++ 0 :: j).drop fi = l.drop fi ++ 0 :: j := by
    rw [List.drop_append_eq_append_drop, Nat.sub_eq_zero_of_le (Nat.le_of_lt hfi)]
    simp
  have hdnz : ∀ x ∈ l.drop fi, x ≠ 0 := fun x hx =>
    hl x (List.mem_of_mem_drop hx)
  have hidx2 : fi + ((l ++ 0 :: j).drop fi).findIdx (fun x => x == 0) = l.length := by
    rw [hdrop, findIdx_zero_terminated _ j hdnz]
    simp
    omega
  have hn1 : l.length < S := by
    have := hlenS
    simp at this
    omega
  have hgetd : (l ++ 0 :: j).getD (l.length - 1) 0 = l.getLastD 0 := by
    rw [List.getD_append _ _ _ _ (by omega), getD_last l hlne]
  have hset1 : (l ++ 0 :: j).set fi (l.getLastD 0) =
      (l.set fi (l.getLastD 0)) ++ 0 :: j := List.set_append_left _ _ hfi
  have hMne : l.set fi (l.getLastD 0) ≠ [] := by
    intro h
    have hn : (l.set fi (l.getLastD 0)).length = 0 := by rw [h]; rfl
    rw [List.length_set] at hn
    omega
  have hset2 : ((l.set fi (l.getLastD 0)) ++ 0 :: j).set (l.length - 1) 0 =
      (l.set fi (l.getLastD 0)).dropLast ++ 0 :: 0 :: j := by
    rw [List.set_append_left _ _ (by simp; omega)]
    have hlen2 : l.length - 1 = (l.set fi (l.getLastD 0)).length - 1 := by simp
    rw [hlen2, set_last_zero _ hMne]
    simp
  simp only [eraseHere, hidx2, if_pos hn1, hgetd, hset1, hset2]

/-- The second Erase loop when the value sits in a full bucket followed by a
bucket with no stored items: the trailing bucket is released. -/
theorem BucketList.eraseHere_full_emptynext (S fi : Nat) (b next : List Nat)
    (rest2 : List (List Nat)) (hfi : fi < b.length)
    (hb : ∀ x ∈ b, x ≠ 0) (hlen : b.length = S)
    (hnext0 : next.getD 0 1 = 0) :
    eraseHere S fi b (next :: rest2) =
      [(b.set fi (b.getLastD 0)).dropLast ++ [0]] := by
  have hbne : b ≠ [] := by
    intro h
    rw [h] at hfi
    simp at hfi
  have hdnz : ∀ x ∈ b.drop fi, x ≠ 0 := fun x hx =>
    hb x (List.mem_of_mem_drop hx)
  have hidx2 : fi + (b.drop fi).findIdx (fun x => x == 0) = S := by
    rw [findIdx_zero_full _ hdnz]
    simp
    omega
  have hgetd : b.getD (S - 1) 0 = b.getLastD 0 := by
    rw [← hlen, getD_last b hbne]
  have hset2 : (b.set fi (b.getLastD 0)).set (S - 1) 0 =
      (b.set fi (b.getLastD 0)).dropLast ++ [0] := by
    have hlen2 : S - 1 = (b.set fi (b.getLastD 0)).length - 1 := by simp [hlen]
    refine Eq.trans (by rw [hlen2]) (set_last_zero _ ?_)
    intro h
    have hn : (b.set fi (b.getLastD 0)).length = 0 := by rw [h]; rfl
    rw [List.length_set] at hn
    omega
  have hbeq : (next.getD 0 1 == 0) = true := beq_iff_eq.mpr hnext0
  simp only [eraseHere, hidx2, Nat.lt_irrefl, if_false, hbeq, if_true, hgetd, hset2]

/-- The second Erase loop when the value sits in a full bucket and the next
bucket still has stored items: delegate to the tail scan. -/
theorem BucketList.eraseHere_full_livenext (S fi : Nat) (b next : List Nat)
    (rest2 : List (List Nat)) (hfi : fi < b.length)
    (hb : ∀ x ∈ b, x ≠ 0) (hlen : b.length = S)
    (hnext0 : next.getD 0 1 ≠ 0) :
    eraseHere S fi b (next :: rest2) =
      (b.set fi (eraseTail S next rest2).1) :: (eraseTail S next rest2).2 := by
  have hdnz : ∀ x ∈ b.drop fi, x ≠ 0 := fun x hx =>
    hb x (List.mem_of_mem_drop hx)
  have hidx2 : fi + (b.drop fi).findIdx (fun x => x == 0) = S := by
    rw [findIdx_zero_full _ hdnz]
    simp
    omega
  have hbeq : (next.getD 0 1 == 0) = false := beq_eq_false_iff_ne.mpr hnext0
  simp only [eraseHere, hidx2, Nat.lt_irrefl, if_false, hbeq]
  simp

/-- Erase on a well-formed chain containing the value keeps the chain
well-formed and removes one occurrence of the value from the stored items
(up to permutation, since Erase backfills from the tail). -/
theorem BucketList.erase_spec (S v : Nat) (hv : v ≠ 0) :
    ∀ c : List (List Nat), WF S c → v ∈ liveOf c →
      WF S (Erase S v c) ∧
      List.Perm (liveOf (Erase S v c)) ((liveOf c).erase v) := by
  intro c
  induction c with
  | nil => intro h _; exact absurd h (by simp [WF])
  | cons b rest ih =>
    intro hwf hmem
    cases rest with
    | nil =>
      obtain ⟨hlen, l, j, rfl, hl⟩ := hwf
      rw [liveOf_cons_term l j [] hl] at hmem ⊢
      have hex : ∃ x ∈ l, (x == v) = true := ⟨v, hmem, by simp⟩
      have hflt : l.findIdx (fun x => x == v) < l.length :=
        List.findIdx_lt_length_of_exists hex
      have hfidx : (l ++ 0 :: j).findIdx (fun x => x == v) =
          l.findIdx (fun x => x == v) := by
        rw [List.findIdx_append, if_pos hflt]
      have hlS : l.length < S := by
        have := hlen
        simp at this
        omega
      have hfiS : l.findIdx (fun x => x == v) < S := Nat.lt_trans hflt hlS
      have herase : Erase S v ((l ++ 0 :: j) :: []) =
          eraseHere S (l.findIdx (fun x => x == v)) (l ++ 0 :: j) [] := by
        simp only [Erase, hfidx, if_pos hfiS]
      rw [herase, eraseHere_term S _ l j [] hflt hl hlen]
      have hlne : l ≠ [] := List.ne_nil_of_mem hmem
      have hlastmem : l.getLastD 0 ∈ l := by
        obtain ⟨l0, la, hl0, hlast, hldrop⟩ := concat_decomp hlne
        rw [hlast, hl0]
        exact List.mem_append_right _ (by simp)
      have hMnz : ∀ x ∈ (l.set (l.findIdx (fun x => x == v)) (l.getLastD 0)).dropLast,
          x ≠ 0 := by
        intro x hx
        have hx2 := List.dropLast_subset _ hx
        rcases List.mem_or_eq_of_mem_set hx2 with h | h
        · exact hl x h
        · exact h ▸ hl _ hlastmem
      rw [liveOf_cons_term _ (0 :: j) [] hMnz]
      have hgv : l.getD (l.findIdx (fun x => x == v)) 0 = v := by
        rw [List.getD_eq_getElem _ _ hflt]
        have := List.findIdx_getElem (w := hflt)
        simpa using this
      constructor
      · refine ⟨?_, _, 0 :: j, rfl, hMnz⟩
        have h1 : (l ++ 0 :: j).length = S := hlen
        simp at h1 ⊢
        omega
      · have hperm := set_getLastD_dropLast_perm l (l.findIdx (fun x => x == v)) hflt
        rw [hgv] at hperm
        exact hperm
    | cons r rs =>
      obtain ⟨⟨hlen, hb⟩, hrest⟩ := hwf
      rw [liveOf_cons_full b _ hb] at hmem ⊢
      by_cases hvb : v ∈ b
      · have hex : ∃ x ∈ b, (x == v) = true := ⟨v, hvb, by simp⟩
        have hflt : b.findIdx (fun x => x == v) < b.length :=
          List.findIdx_lt_length_of_exists hex
        have hfiS : b.findIdx (fun x => x == v) < S := hlen ▸ hflt
        have herase : Erase S v (b :: r :: rs) =
            eraseHere S (b.findIdx (fun x => x == v)) b (r :: rs) := by
          simp only [Erase, if_pos hfiS]
        have hbne : b ≠ [] := List.ne_nil_of_mem hvb
        have hS1 : 1 ≤ S := by
          rw [← hlen]
          exact List.length_pos.mpr hbne
        have hgv : b.getD (b.findIdx (fun x => x == v)) 0 = v := by
          rw [List.getD_eq_getElem _ _ hflt]
          have := List.findIdx_getElem (w := hflt)
          simpa using this
        by_cases hr0 : r.getD 0 1 = 0
        · have hrne : r ≠ [] := by
            intro h
            cases rs with
            | nil =>
              obtain ⟨hlen2, l2, j2, heq, hl2⟩ := hrest
              rw [h] at hlen2
              simp at hlen2
              omega
            | cons q qs =>
              obtain ⟨⟨hlen2, hnz⟩, hx⟩ := hrest
              rw [h] at hlen2
              simp at hlen2
              omega
          have hrs : rs = [] := by
            cases rs with
            | nil => rfl
            | cons q qs =>
              obtain ⟨⟨hlen2, hnz⟩, hx⟩ := hrest
              exfalso
              cases r with
              | nil => exact hrne rfl
              | cons r0 rt =>
                exact hnz r0 (List.mem_cons_self r0 rt) (by simpa using hr0)
          subst hrs
          obtain ⟨hlen2, l2, j2, hreq, hl2⟩ := hrest
          have hl2nil : l2 = [] := by
            cases l2 with
            | nil => rfl
            | cons x l2t =>
              exfalso
              apply hl2 x (List.mem_cons_self x l2t)
              have : r.getD 0 1 = x := by rw [hreq]; rfl
              omega
          subst hl2nil
          simp only [List.nil_append] at hreq
          have hliver : liveOf (r :: ([] : List (List Nat))) = [] := by
            rw [hreq]
            exact liveOf_cons_term [] j2 [] (by simp)
          rw [herase, eraseHere_full_emptynext S _ b r [] hflt hb hlen hr0, hliver,
            List.append_nil]
          have hlastmem : b.getLastD 0 ∈ b := by
            obtain ⟨b0, ba, hb0, hblast, hbdrop⟩ := concat_decomp hbne
            rw [hblast, hb0]
            exact List.mem_append_right _ (by simp)
          have hMnz : ∀ x ∈ (b.set (b.findIdx (fun x => x == v)) (b.getLastD 0)).dropLast,
              x ≠ 0 := by
            intro x hx
            have hx2 := List.dropLast_subset _ hx
            rcases List.mem_or_eq_of_mem_set hx2 with h | h
            · exact hb x h
            · exact h ▸ hb _ hlastmem
          rw [show ((b.set (b.findIdx (fun x => x == v)) (b.getLastD 0)).dropLast
              ++ [0] : List Nat) =
              (b.set (b.findIdx (fun x => x == v)) (b.getLastD 0)).dropLast
              ++ 0 :: [] from rfl]
          rw [liveOf_cons_term _ [] [] hMnz]
          constructor
          · refine ⟨?_, _, [], rfl, hMnz⟩
            simp [hlen]
            omega
          · have hperm := set_getLastD_dropLast_perm b (b.findIdx (fun x => x == v)) hflt
            rw [hgv] at hperm
            exact hperm
        · have hrne : r ≠ [] := by
            intro h
            cases rs with
            | nil =>
              obtain ⟨hlen2, l2, j2, heq, hl2⟩ := hrest
              rw [h] at hlen2
              simp at hlen2
              omega
            | cons q qs =>
              obtain ⟨⟨hlen2, hnz⟩, hx⟩ := hrest
              rw [h] at hlen2
              simp at hlen2
              omega
          have hd2 : r.getD 0 0 ≠ 0 := by
            cases r with
            | nil => exact absurd rfl hrne
            | cons r0 rt =>
              intro h
              exact hr0 (by simp_all)
          obtain ⟨hLne, hfst, hlive2, hwf2⟩ := eraseTail_spec S rs r hrest hd2
          rw [herase, eraseHere_full_livenext S _ b r rs hflt hb hlen hr0]
          obtain ⟨L0, la, hL0, hLlast, hLdrop⟩ := concat_decomp hLne
          have hlveq : (eraseTail S r rs).1 = la := hfst.trans hLlast
          have hlvnz : (eraseTail S r rs).1 ≠ 0 := by
            rw [hlveq]
            apply liveOf_nonzero S (r :: rs) hrest
            rw [hL0]
            exact List.mem_append_right _ (by simp)
          have hsetnz : ∀ x ∈ b.set (b.findIdx (fun x => x == v)) (eraseTail S r rs).1,
              x ≠ 0 := by
            intro x hx
            rcases List.mem_or_eq_of_mem_set hx with h | h
            · exact hb x h
            · exact h ▸ hlvnz
          rw [liveOf_cons_full _ _ hsetnz, hlive2]
          constructor
          · cases he : (eraseTail S r rs).2 with
            | nil =>
              rw [he] at hwf2
              exact absurd hwf2 (by simp [WF])
            | cons e es =>
              rw [he] at hwf2
              exact ⟨⟨by simp [hlen], hsetnz⟩, hwf2⟩
          · rw [List.erase_append_left _ hvb, List.perm_iff_count]
            intro x
            simp only [List.count_append]
            rw [hlveq]
            have hcs := count_set_nat b (b.findIdx (fun x => x == v)) la x hflt
            rw [hgv] at hcs
            have hvpos : 0 < b.count v := List.count_pos_iff.mpr hvb
            have hce2 : (b.erase v).count x + (if v = x then 1 else 0) =
                b.count x := by
              rw [List.count_erase]
              by_cases h : v = x
              · rw [beq_iff_eq.mpr h, if_pos rfl, if_pos h]
                have h3 : 0 < List.count x b := by rw [← h]; exact hvpos
                omega
              · rw [beq_eq_false_iff_ne.mpr h, if_neg Bool.false_ne_true,
                  if_neg h]
                omega
            have hcnt3 : (liveOf (r :: rs)).count x = L0.count x +
                (if la = x then 1 else 0) := by
              rw [hL0, List.count_append, List.count_singleton]
              by_cases h2 : la = x
              · rw [beq_iff_eq.mpr h2, if_pos rfl, if_pos h2]
              · rw [beq_eq_false_iff_ne.mpr h2, if_neg Bool.false_ne_true,
                  if_neg h2]
            rw [hLdrop, hcnt3]
            rcases Decidable.em (v = x) with h1 | h1 <;>
              rcases Decidable.em (la = x) with h2 | h2
            · rw [if_pos h1] at hce2
              rw [if_pos h1, if_pos h2] at hcs
              rw [if_pos h2]
              omega
            · rw [if_pos h1] at hce2
              rw [if_pos h1, if_neg h2] at hcs
              rw [if_neg h2]
              omega
            · rw [if_neg h1] at hce2
              rw [if_neg h1, if_pos h2] at hcs
              rw [if_pos h2]
              omega
            · rw [if_neg h1] at hce2
              rw [if_neg h1, if_neg h2] at hcs
              rw [if_neg h2]
              omega
      · have hfidx : b.findIdx (fun x => x == v) = b.length :=
          List.findIdx_eq_length_of_false (fun x hx =>
            beq_eq_false_iff_ne.mpr (fun he => hvb (he ▸ hx)))
        have hnotin : ¬ b.findIdx (fun x => x == v) < S := by
          rw [hfidx, hlen]
          exact Nat.lt_irrefl S
        have herase : Erase S v (b :: r :: rs) = b :: Erase S v (r :: rs) := by
          simp only [Erase, if_neg hnotin]
        have hmem2 : v ∈ liveOf (r :: rs) := by
          rcases List.mem_append.mp hmem with h | h
          · exact absurd h hvb
          · exact h
        obtain ⟨hwf2, hperm2⟩ := ih hrest hmem2
        rw [herase]
        constructor
        · cases he : Erase S v (r :: rs) with
          | nil =>
            rw [he] at hwf2
            exact absurd hwf2 (by simp [WF])
          | cons e es =>
            rw [he] at hwf2
            exact ⟨⟨hlen, hb⟩, hwf2⟩
        · rw [liveOf_cons_full b _ hb, List.erase_append_right _ hvb]
          exact hperm2.append_left b

/-- C9: on any well-formed bucket chain and non-zero id v, immediately after
Append(v) the item is found by Find; Append adds exactly v to the stored
multiset; Erase removes exactly one occurrence of v from the stored multiset;
when v was stored exactly once, Find no longer finds it after Erase(v); and
an Append(v)/Erase(v) pair leaves the stored multiset unchanged. -/
theorem bucket_append_erase_find (S v : Nat) (c : List (List Nat))
    (hWF : BucketList.WF S c) (hv : v ≠ 0) :
    BucketList.Find (fun x => x == v) (BucketList.Append S v c) = true ∧
    List.Perm (BucketList.liveOf (BucketList.Append S v c))
      (BucketList.liveOf c ++ [v]) ∧
    (v ∈ BucketList.liveOf c →
      List.Perm (BucketList.liveOf (BucketList.Erase S v c))
        ((BucketList.liveOf c).erase v)) ∧
    ((BucketList.liveOf c).count v = 1 →
      BucketList.Find (fun x => x == v) (BucketList.Erase S v c) = false) ∧
    (v ∉ BucketList.liveOf c →
      List.Perm
        (BucketList.liveOf (BucketList.Erase S v (BucketList.Append S v c)))
        (BucketList.liveOf c)) := by
  obtain ⟨hwfA, hliveA⟩ := BucketList.append_spec S v hv c hWF
  refine ⟨?_, ?_, ?_, ?_, ?_⟩
  · rw [BucketList.find_eq_any S _ _ hwfA, hliveA]
    simp
  · rw [hliveA]
  · intro hmem
    exact (BucketList.erase_spec S v hv c hWF hmem).2
  · intro hcnt
    have hmem : v ∈ BucketList.liveOf c := by
      apply List.count_pos_iff.mp
      omega
    obtain ⟨hwfE, hpermE⟩ := BucketList.erase_spec S v hv c hWF hmem
    rw [BucketList.find_eq_any S _ _ hwfE]
    have hc := hpermE.count_eq v
    rw [List.count_erase_self] at hc
    have hzero : List.count v (BucketList.liveOf (BucketList.Erase S v c)) = 0 := by
      omega
    have hnot := List.not_mem_of_count_eq_zero hzero
    cases hany : (BucketList.liveOf (BucketList.Erase S v c)).any (fun x => x == v)
    · rfl
    · exfalso
      obtain ⟨y, hy, hyv⟩ := List.any_eq_true.mp hany
      exact hnot (beq_iff_eq.mp hyv ▸ hy)
  · intro hnotmem
    have hmem2 : v ∈ BucketList.liveOf (BucketList.Append S v c) := by
      rw [hliveA]
      simp
    obtain ⟨hwfE2, hpermE2⟩ := BucketList.erase_spec S v hv _ hwfA hmem2
    rw [hliveA] at hpermE2
    have herase : (BucketList.liveOf c ++ [v]).erase v = BucketList.liveOf c := by
      rw [List.erase_append_right _ hnotmem]
      simp
    rw [herase] at hpermE2
    exact hpermE2

/-- Witness for C9 on a concrete fresh chain with S = 2 and v = 5. -/
theorem bucket_append_erase_find_witness :
    BucketList.Find (fun x => x == 5)
      (BucketList.Append 2 5 [[0, 0xDEADBEEF]]) = true ∧
    List.Perm
      (BucketList.liveOf
        (BucketList.Erase 2 5 (BucketList.Append 2 5 [[0, 0xDEADBEEF]])))
      (BucketList.liveOf [[0, 0xDEADBEEF]]) := by
  have hwf : BucketList.WF 2 [[0, 0xDEADBEEF]] := by
    show BucketList.lastB 2 [0, 0xDEADBEEF]
    exact ⟨rfl, [], [0xDEADBEEF], rfl, by simp⟩
  have h := bucket_append_erase_find 2 5 [[0, 0xDEADBEEF]] hwf (by norm_num)
  exact ⟨h.1, h.2.2.2.2 (by decide)⟩
